import Mathlib

/-!
Verification development for the VibeVoice-FastAPI orchestration core.

Texts are modelled as `List Char` (Python `str`), audio buffers as `List ℚ`
(PCM float samples), machine integers as `Nat`/`Int`.  Each definition below
is a shallow embedding of the correspondingly named function of
`standalone/vibevoice_core.py`, `api/services/tts_service.py` or
`api/utils/audio_utils.py`; doc comments name the source location.
-/

namespace VibeVoice

/-! ### Character classes (Python semantics, ASCII range) -/

/-- Python regex `\s` / `str.split()` whitespace, ASCII range. -/
def isSpc (c : Char) : Bool :=
  c = ' ' || c = '\t' || c = '\n' || c = '\r' || c = '\x0b' || c = '\x0c'

/-- Sentence-terminal punctuation, the `[.!?]` class of the sentence regex. -/
def isTermCh (c : Char) : Bool := c = '.' || c = '!' || c = '?'

/-- The `[A-Z]` class of the sentence regex. -/
def isUpperCh (c : Char) : Bool := 'A' ≤ c && c ≤ 'Z'

/-- The `[,;]` class of the sub-sentence split regex. -/
def isCommaSemi (c : Char) : Bool := c = ',' || c = ';'

/-- The `\d` class of the pause-marker regex. -/
def isDigitCh (c : Char) : Bool := '0' ≤ c && c ≤ '9'

/-- The `|` separator used by the fallback sentence split. -/
def isBar (c : Char) : Bool := c = '|'

/-! ### `str.split()` (whitespace words), `str.strip()`, `' '.join` -/

/-- One pending word, emitted if nonempty. -/
def emitW (acc : List Char) : List (List Char) := if acc = [] then [] else [acc]

/-- Accumulator pass of Python `str.split()` (split on whitespace runs,
dropping empty pieces). `acc` holds the word being scanned. -/
def wordsAux : List Char → List Char → List (List Char)
  | [], acc => emitW acc
  | c :: cs, acc =>
    if isSpc c then emitW acc ++ wordsAux cs [] else wordsAux cs (acc ++ [c])

/-- Python `s.split()`: the whitespace-separated words of `s`. -/
def words (l : List Char) : List (List Char) := wordsAux l []

/-- Python `s.strip()`: drop leading and trailing whitespace. -/
def strip (l : List Char) : List Char :=
  ((l.dropWhile isSpc).reverse.dropWhile isSpc).reverse

/-- Python `' '.join(pieces)`. -/
def joinSpace : List (List Char) → List Char
  | [] => []
  | [x] => x
  | x :: xs => x ++ ' ' :: joinSpace xs

/-! ### Lemmas about `words` -/

theorem wordsAux_append_spc {s : Char} (hs : isSpc s = true) :
    ∀ (x : List Char) (acc y : List Char),
      wordsAux (x ++ s :: y) acc = wordsAux x acc ++ wordsAux y [] := by
  intro x
  induction x with
  | nil =>
    intro acc y
    simp [wordsAux, hs]
  | cons c x ih =>
    intro acc y
    by_cases hc : isSpc c
    · simp only [List.cons_append, wordsAux, hc, if_true, List.append_assoc]
      exact congrArg (fun z => emitW acc ++ z) (ih [] y)
    · simp only [List.cons_append, wordsAux, hc]
      simpa using ih (acc ++ [c]) y

/-- Splitting at an inserted space: no word crosses a whitespace character. -/
theorem words_append_spc {s : Char} (hs : isSpc s = true) (x y : List Char) :
    words (x ++ s :: y) = words x ++ words y :=
  wordsAux_append_spc hs x [] y

theorem wordsAux_all_spc {s : List Char} (hs : ∀ c ∈ s, isSpc c = true) :
    ∀ acc, wordsAux s acc = emitW acc := by
  induction s with
  | nil => intro acc; rfl
  | cons c s ih =>
    intro acc
    have hc : isSpc c = true := hs c (by simp)
    have ih' := ih (fun d hd => hs d (by simp [hd]))
    simp [wordsAux, hc, ih', emitW]

theorem wordsAux_append_all_spc {s : List Char} (hs : ∀ c ∈ s, isSpc c = true) :
    ∀ (x acc : List Char), wordsAux (x ++ s) acc = wordsAux x acc := by
  intro x
  induction x with
  | nil =>
    intro acc
    simp only [List.nil_append]
    rw [wordsAux_all_spc hs]
    rfl
  | cons c x ih =>
    intro acc
    by_cases hc : isSpc c
    · simp [wordsAux, hc, ih]
    · simp [wordsAux, hc, ih]

theorem wordsAux_dropWhile_spc (l : List Char) :
    wordsAux (l.dropWhile isSpc) [] = wordsAux l [] := by
  induction l with
  | nil => rfl
  | cons c l ih =>
    by_cases hc : isSpc c
    · rw [List.dropWhile_cons_of_pos hc]
      rw [ih]
      simp [wordsAux, hc, emitW]
    · rw [List.dropWhile_cons_of_neg (by simp [hc])]

theorem mem_takeWhile_spc {p : Char → Bool} :
    ∀ l : List Char, ∀ c ∈ l.takeWhile p, p c = true := by
  intro l
  induction l with
  | nil => intro c hc; simp [List.takeWhile] at hc
  | cons a l ih =>
    intro c hc
    by_cases ha : p a
    · rw [List.takeWhile_cons_of_pos ha] at hc
      rcases List.mem_cons.mp hc with h | h
      · exact h ▸ ha
      · exact ih c h
    · rw [List.takeWhile_cons_of_neg (by simp [ha])] at hc
      simp at hc

/-- `strip` removes only whitespace: the word list is unchanged. -/
theorem words_strip (l : List Char) : words (strip l) = words l := by
  have hdecomp : l.dropWhile isSpc = strip l ++ ((l.dropWhile isSpc).reverse.takeWhile isSpc).reverse := by
    unfold strip
    rw [← List.reverse_append]
    rw [List.takeWhile_append_dropWhile]
    rw [List.reverse_reverse]
  have hall : ∀ c ∈ ((l.dropWhile isSpc).reverse.takeWhile isSpc).reverse, isSpc c = true := by
    intro c hc
    rw [List.mem_reverse] at hc
    exact mem_takeWhile_spc _ c hc
  unfold words
  rw [← wordsAux_dropWhile_spc l, hdecomp]
  exact (wordsAux_append_all_spc hall (strip l) []).symm

/-- Characters of `strip l` all come from `l`. -/
theorem mem_strip_subset {a : Char} {l : List Char} (h : a ∈ strip l) : a ∈ l := by
  unfold strip at h
  rw [List.mem_reverse] at h
  have h1 : List.Sublist ((l.dropWhile isSpc).reverse.dropWhile isSpc)
      (l.dropWhile isSpc).reverse := List.dropWhile_sublist _
  have h2 : a ∈ (l.dropWhile isSpc).reverse := h1.subset h
  rw [List.mem_reverse] at h2
  have h3 : List.Sublist (l.dropWhile isSpc) l := List.dropWhile_sublist _
  exact h3.subset h2

/-- `' '.join` and `str.split()` interact as expected: the words of the join
are the concatenation of the words of the pieces. -/
theorem words_joinSpace : ∀ l : List (List Char),
    words (joinSpace l) = (l.map words).flatten := by
  intro l
  induction l with
  | nil => rfl
  | cons x xs ih =>
    cases xs with
    | nil => simp [joinSpace, words, wordsAux]
    | cons y ys =>
      show words (x ++ ' ' :: joinSpace (y :: ys)) = _
      rw [words_append_spc (by decide), ih]
      simp

/-! ### Sentence split: `re.split(r'(?<=[.!?])\s+(?=[A-Z])', text)`

A match of the separator regex starts right after a `[.!?]` character,
consumes a maximal whitespace run, and requires the following character to be
`[A-Z]`.  (Backtracking to a shorter run cannot succeed, because the character
after a shorter run is whitespace, not `[A-Z]`.) -/

theorem dropWhile_len_le {α : Type} (p : α → Bool) :
    ∀ l : List α, (l.dropWhile p).length ≤ l.length := by
  intro l
  induction l with
  | nil => simp [List.dropWhile]
  | cons a l ih =>
    by_cases h : p a
    · simp only [List.dropWhile, h]
      exact Nat.le_succ_of_le ih
    · simp [List.dropWhile, h]

/-- After a terminal character, does the separator regex match here?
(nonempty whitespace run followed by an uppercase letter). -/
def splitHere (cs : List Char) : Bool :=
  !(cs.takeWhile isSpc).isEmpty &&
    (match cs.dropWhile isSpc with | d :: _ => isUpperCh d | [] => false)

/-- Left-to-right scan of the sentence-split regex; `acc` is the piece being
accumulated.  On a match the whitespace run is consumed (as `re.split` does). -/
def sentSplitAux : List Char → List Char → List (List Char)
  | [], acc => [acc]
  | c :: cs, acc =>
    if isTermCh c && splitHere cs then
      (acc ++ [c]) :: sentSplitAux (cs.dropWhile isSpc) []
    else
      sentSplitAux cs (acc ++ [c])
termination_by l _ => l.length
decreasing_by
  · exact Nat.lt_succ_of_le (dropWhile_len_le _ _)
  · exact Nat.lt_succ_self _

/-- `re.split(r'(?<=[.!?])\s+(?=[A-Z])', text)` of vibevoice_core.py:383. -/
def sentSplit (l : List Char) : List (List Char) := sentSplitAux l []

theorem splitHere_cons {cs : List Char} (h : splitHere cs = true) :
    ∃ s cs', cs = s :: cs' ∧ isSpc s = true := by
  cases cs with
  | nil => simp [splitHere, List.takeWhile] at h
  | cons s cs' =>
    refine ⟨s, cs', rfl, ?_⟩
    by_cases hs : isSpc s
    · exact hs
    · rw [splitHere, List.takeWhile_cons_of_neg (by simp [hs])] at h
      simp at h

/-- The sentence split only consumes whitespace: concatenating the words of
the pieces gives back the words of the input. -/
theorem words_sentSplitAux : ∀ (l acc : List Char),
    ((sentSplitAux l acc).map words).flatten = words (acc ++ l) := by
  intro l acc
  induction l, acc using sentSplitAux.induct with
  | case1 acc => simp [sentSplitAux, words]
  | case2 c cs acc hcond ih =>
    rw [sentSplitAux]
    simp only [hcond, if_true, List.map_cons, List.flatten_cons, ih]
    obtain ⟨s, cs', rfl, hs⟩ :=
      splitHere_cons (Bool.and_elim_right (by exact hcond))
    have h1 : words ((s :: cs').dropWhile isSpc) = words cs' := by
      unfold words
      rw [wordsAux_dropWhile_spc]
      simp [wordsAux, hs, emitW]
    have h2 : acc ++ c :: s :: cs' = (acc ++ [c]) ++ s :: cs' := by simp
    simp only [List.nil_append]
    rw [h1, h2, words_append_spc hs (acc ++ [c]) cs']
  | case3 c cs acc hcond ih =>
    rw [sentSplitAux]
    simp only [Bool.not_eq_true] at hcond
    simp only [hcond, Bool.false_eq_true, if_false, ih]
    simp

/-! ### `re.split(r'[,;]', s)` and the `'|'` split: split on single characters,
keeping empty pieces -/

/-- Prepend `x` to the first piece. -/
def consHead (x : List Char) : List (List Char) → List (List Char)
  | [] => [x]
  | w :: ws => (x ++ w) :: ws

/-- `re.split` on a single-character class `p` (empty pieces kept), also
Python `str.split(sep)` for a one-character `sep`. -/
def splitOnPc (p : Char → Bool) : List Char → List (List Char)
  | [] => [[]]
  | a :: l => if p a then [] :: splitOnPc p l else consHead [a] (splitOnPc p l)

theorem splitOnPc_ne_nil (p : Char → Bool) : ∀ l, splitOnPc p l ≠ [] := by
  intro l
  induction l with
  | nil => simp [splitOnPc]
  | cons a l ih =>
    by_cases h : p a
    · simp [splitOnPc, h]
    · simp only [splitOnPc, h, Bool.false_eq_true, if_false]
      cases hs : splitOnPc p l with
      | nil => exact absurd hs ih
      | cons w ws => simp [consHead]

theorem consHead_nil {S : List (List Char)} (h : S ≠ []) : consHead [] S = S := by
  cases S with
  | nil => exact absurd rfl h
  | cons w ws => simp [consHead]

theorem consHead_consHead (x y : List Char) (S : List (List Char)) :
    consHead x (consHead y S) = consHead (x ++ y) S := by
  cases S <;> simp [consHead]

/-- Pieces of a character split contain no separator character. -/
theorem mem_splitOnPc_no_sep (p : Char → Bool) :
    ∀ l w, w ∈ splitOnPc p l → ∀ a ∈ w, p a = false := by
  intro l
  induction l with
  | nil =>
    intro w hw a ha
    simp [splitOnPc] at hw
    subst hw
    simp at ha
  | cons b l ih =>
    intro w hw a ha
    by_cases hb : p b
    · rw [splitOnPc, if_pos (by simp [hb])] at hw
      rcases List.mem_cons.mp hw with h | h
      · subst h; simp at ha
      · exact ih w h a ha
    · rw [splitOnPc, if_neg (by simp [hb])] at hw
      cases hs : splitOnPc p l with
      | nil => exact absurd hs (splitOnPc_ne_nil p l)
      | cons w0 ws =>
        rw [hs] at hw
        simp only [consHead, List.singleton_append] at hw
        rcases List.mem_cons.mp hw with h | h
        · subst h
          rcases List.mem_cons.mp ha with h' | h'
          · subst h'; simpa using hb
          · exact ih w0 (by rw [hs]; exact List.mem_cons_self _ _) a h'
        · exact ih w (by rw [hs]; exact List.mem_cons_of_mem _ h) a ha

/-! ### Fallback split: `text.replace('. ', '.|').split('|')` -/

/-- Python `text.replace('. ', '.|')`: left-to-right non-overlapping
replacement (vibevoice_core.py:389). -/
def replDotSpace : List Char → List Char
  | [] => []
  | [c] => [c]
  | c :: d :: rest =>
    if c = '.' && d = ' ' then '.' :: '|' :: replDotSpace rest
    else c :: replDotSpace (d :: rest)

/-- The fallback split turns each replaced `'. '` into a piece boundary; when
the input contains no literal `'|'`, the words of the pieces concatenate to
the words of the input. -/
theorem words_replSplit : ∀ t : List Char, '|' ∉ t → ∀ acc : List Char,
    ((consHead acc (splitOnPc isBar (replDotSpace t))).map words).flatten =
      words (acc ++ t) := by
  intro t
  induction t using replDotSpace.induct with
  | case1 =>
    intro _ acc
    simp [replDotSpace, splitOnPc, consHead, words, wordsAux]
  | case2 c =>
    intro hbar acc
    have hc : isBar c = false := by
      simp only [isBar, decide_eq_false_iff_not]
      intro h
      exact hbar (by simp [h])
    simp [replDotSpace, splitOnPc, hc, consHead]
  | case3 c d rest hcond ih =>
    intro hbar acc
    obtain ⟨hc, hd⟩ := by exact Bool.and_eq_true_iff.mp hcond
    rw [decide_eq_true_iff] at hc hd
    subst hc
    subst hd
    rw [replDotSpace, if_pos (by simp)]
    have hbarR : isBar '.' = false := by decide
    rw [show splitOnPc isBar ('.' :: '|' :: replDotSpace rest) =
          consHead [ '.' ] (splitOnPc isBar ('|' :: replDotSpace rest)) from by
        rw [splitOnPc, if_neg (by simp [isBar])]]
    rw [show splitOnPc isBar ('|' :: replDotSpace rest) =
          [] :: splitOnPc isBar (replDotSpace rest) from by
        rw [splitOnPc, if_pos (by simp [isBar])]]
    have hrest : '|' ∉ rest := fun h => hbar (by simp [h])
    have ihS := ih hrest []
    rw [consHead_nil (splitOnPc_ne_nil isBar (replDotSpace rest))] at ihS
    simp only [consHead, List.append_nil, List.map_cons, List.flatten_cons, ihS]
    have h2 : acc ++ '.' :: ' ' :: rest = (acc ++ [ '.' ]) ++ ' ' :: rest := by simp
    rw [h2, words_append_spc (show isSpc ' ' = true from by decide) (acc ++ [ '.' ]) rest]
    simp
  | case4 c d rest hcond ih =>
    intro hbar acc
    have hc : isBar c = false := by
      simp only [isBar, decide_eq_false_iff_not]
      intro h
      exact hbar (by simp [h])
    rw [replDotSpace, if_neg (by simpa using hcond)]
    rw [show splitOnPc isBar (c :: replDotSpace (d :: rest)) =
          consHead [c] (splitOnPc isBar (replDotSpace (d :: rest))) from by
        rw [splitOnPc, if_neg (by simp [hc])]]
    rw [consHead_consHead]
    have hrest : '|' ∉ d :: rest := fun h => hbar (by simp at h ⊢; tauto)
    rw [ih hrest (acc ++ [c])]
    simp

/-- Dropping the strip-empty pieces and stripping the rest does not change the
concatenated words. -/
theorem words_filter_strip : ∀ ps : List (List Char),
    ((((ps.map strip).filter (fun s => !s.isEmpty)).map words).flatten) =
      (ps.map words).flatten := by
  intro ps
  induction ps with
  | nil => rfl
  | cons p ps ih =>
    by_cases hp : (strip p).isEmpty
    · have h0 : strip p = [] := by simpa using hp
      have hw : words p = [] := by
        rw [← words_strip p, h0]
        rfl
      simp only [List.map_cons, List.filter_cons, hp, Bool.not_true, List.flatten_cons, hw,
        List.nil_append]
      simpa using ih
    · have hw : words (strip p) = words p := words_strip p
      simp only [List.map_cons, List.filter_cons, hp, Bool.not_false, List.flatten_cons]
      simp only [Bool.not_eq_true] at hp
      simp [hp, hw, ih]

/-! ### `VibeVoiceCore._split_text_into_chunks` (vibevoice_core.py:371-448) -/

/-- Loop state of the chunking loop: emitted chunks, units of the current
chunk, and `current_word_count`. -/
structure SplitSt where
  chunks : List (List Char)
  cur : List (List Char)
  cnt : Nat

/-- The shared unit-packing step of both loop branches: flush the current
chunk when adding `u` would exceed the budget and the current chunk is
nonempty, else append `u` to the current chunk. -/
def pushUnit (W : Nat) (st : SplitSt) (u : List Char) : SplitSt :=
  if decide (W < st.cnt + (words u).length) && !st.cur.isEmpty then
    ⟨st.chunks ++ [joinSpace st.cur], [u], (words u).length⟩
  else
    ⟨st.chunks, st.cur ++ [u], st.cnt + (words u).length⟩

/-- Body of the inner `for part in sub_parts` loop: strip, skip empties,
pack (vibevoice_core.py:408-422). -/
def pushPart (W : Nat) (st : SplitSt) (p0 : List Char) : SplitSt :=
  if (strip p0).isEmpty then st else pushUnit W st (strip p0)

/-- Body of the `for sentence in sentences` loop (vibevoice_core.py:396-433):
an over-budget sentence is sub-split at `[,;]`, others are packed whole. -/
def procSentence (W : Nat) (st : SplitSt) (s0 : List Char) : SplitSt :=
  if (strip s0).isEmpty then st
  else if W < (words (strip s0)).length then
    (splitOnPc isCommaSemi (strip s0)).foldl (pushPart W) st
  else pushUnit W st (strip s0)

/-- The sentence list the loop runs over: the regex split, or the
`'. '`-replacement fallback when the regex found a single sentence and the
text is over budget (vibevoice_core.py:383-390). -/
def chosenSentences (text : List Char) (W : Nat) : List (List Char) :=
  if (sentSplit text).length = 1 ∧ W < (words text).length then
    ((splitOnPc isBar (replDotSpace text)).map strip).filter (fun s => !s.isEmpty)
  else sentSplit text

/-- Append the remaining current chunk (vibevoice_core.py:436-437). -/
def finishChunks (st : SplitSt) : List (List Char) :=
  if st.cur.isEmpty then st.chunks else st.chunks ++ [joinSpace st.cur]

/-- `VibeVoiceCore._split_text_into_chunks(text, max_words)`. -/
def _split_text_into_chunks (text : List Char) (W : Nat) : List (List Char) :=
  let chunks := finishChunks ((chosenSentences text W).foldl (procSentence W) ⟨[], [], 0⟩)
  if chunks.isEmpty then [text] else chunks

/-! ### Word preservation (claim C1) -/

/-- All words currently recorded in the state, in order. -/
def flatWords (st : SplitSt) : List (List Char) :=
  (st.chunks.map words).flatten ++ (st.cur.map words).flatten

theorem flatWords_pushUnit (W : Nat) (st : SplitSt) (u : List Char) :
    flatWords (pushUnit W st u) = flatWords st ++ words u := by
  unfold pushUnit
  by_cases h : decide (W < st.cnt + (words u).length) && !st.cur.isEmpty
  · simp [h, flatWords, words_joinSpace, List.append_assoc]
  · simp only [Bool.not_eq_true] at h
    simp [h, flatWords, List.append_assoc]

theorem flatWords_pushPart (W : Nat) (st : SplitSt) (p0 : List Char) :
    flatWords (pushPart W st p0) = flatWords st ++ words (strip p0) := by
  unfold pushPart
  by_cases h : (strip p0).isEmpty
  · have h0 : strip p0 = [] := by simpa using h
    simp [h, h0, words, wordsAux, emitW]
  · simp [h, flatWords_pushUnit]

theorem flatWords_procSentence (W : Nat) (st : SplitSt) (s0 : List Char)
    (h : (words s0).length ≤ W) :
    flatWords (procSentence W st s0) = flatWords st ++ words s0 := by
  unfold procSentence
  by_cases he : (strip s0).isEmpty
  · have h0 : strip s0 = [] := by simpa using he
    have hw : words s0 = [] := by rw [← words_strip s0, h0]; rfl
    simp [he, hw]
  · have hlen : ¬ W < (words (strip s0)).length := by
      rw [words_strip]
      omega
    rw [if_neg he, if_neg hlen, flatWords_pushUnit, words_strip]

theorem flatWords_foldl (W : Nat) : ∀ (sents : List (List Char)) (st : SplitSt),
    (∀ s ∈ sents, (words s).length ≤ W) →
    flatWords (sents.foldl (procSentence W) st) = flatWords st ++ (sents.map words).flatten := by
  intro sents
  induction sents with
  | nil => intro st _; simp
  | cons s sents ih =>
    intro st h
    have hs : (words s).length ≤ W := h s (by simp)
    have hrest : ∀ s' ∈ sents, (words s').length ≤ W := fun s' hs' => h s' (by simp [hs'])
    simp only [List.foldl_cons, List.map_cons, List.flatten_cons]
    rw [ih _ hrest, flatWords_procSentence _ _ _ hs, List.append_assoc]

/-- The chosen sentence list carries exactly the words of the text, provided
the fallback split is not confused by a literal `'|'`. -/
theorem words_chosenSentences (text : List Char) (W : Nat)
    (h2 : (sentSplit text).length = 1 ∧ W < (words text).length → '|' ∉ text) :
    ((chosenSentences text W).map words).flatten = words text := by
  unfold chosenSentences
  by_cases hfb : (sentSplit text).length = 1 ∧ W < (words text).length
  · rw [if_pos hfb, words_filter_strip]
    have h := words_replSplit text (h2 hfb) []
    rw [consHead_nil (splitOnPc_ne_nil isBar (replDotSpace text))] at h
    simpa using h
  · rw [if_neg hfb]
    have h := words_sentSplitAux text []
    simpa using h

theorem finishChunks_flatWords (st : SplitSt) :
    ((finishChunks st).map words).flatten = flatWords st := by
  unfold finishChunks flatWords
  by_cases h : st.cur.isEmpty
  · have h0 : st.cur = [] := by simpa using h
    simp [h, h0]
  · simp [h, words_joinSpace]

/-! ### Chunk-size invariant (claim C2) -/

/-- A chunk contains no comma or semicolon (an "unsplittable run" at the
sub-sentence level). -/
def noCS (l : List Char) : Prop := ∀ a ∈ l, isCommaSemi a = false

/-- Every emitted chunk is within budget or is a single unsplittable run. -/
def goodChunk (W : Nat) (ch : List Char) : Prop :=
    (words ch).length ≤ W ∨ noCS ch

/-- Loop invariant: emitted chunks are good, `cnt` counts the words of the
current chunk, and the current chunk is within budget unless it is a single
unsplittable unit. -/
def invSt (W : Nat) (st : SplitSt) : Prop :=
  (∀ ch ∈ st.chunks, goodChunk W ch) ∧
    st.cnt = ((st.cur.map words).flatten).length ∧
    (st.cnt ≤ W ∨ ∃ u, st.cur = [u] ∧ noCS u)

theorem good_joinSpace {W : Nat} {st : SplitSt} (h : invSt W st) :
    goodChunk W (joinSpace st.cur) := by
  obtain ⟨_, hcnt, hcw⟩ := h
  rcases hcw with hle | ⟨u, hu, hnc⟩
  · left
    rw [words_joinSpace, ← hcnt]
    exact hle
  · right
    rw [hu]
    simpa [joinSpace] using hnc

theorem inv_pushUnit {W : Nat} {st : SplitSt} {u : List Char}
    (hst : invSt W st) (hu : goodChunk W u) : invSt W (pushUnit W st u) := by
  obtain ⟨hch, hcnt, hcw⟩ := hst
  unfold pushUnit
  by_cases h : decide (W < st.cnt + (words u).length) && !st.cur.isEmpty
  · rw [if_pos h]
    refine ⟨?_, by simp, ?_⟩
    · intro ch hmem
      rcases List.mem_append.mp hmem with hm | hm
      · exact hch ch hm
      · have : ch = joinSpace st.cur := by simpa using hm
        rw [this]
        exact good_joinSpace ⟨hch, hcnt, hcw⟩
    · rcases hu with hle | hnc
      · exact Or.inl hle
      · exact Or.inr ⟨u, rfl, hnc⟩
  · rw [if_neg h]
    refine ⟨hch, by simp [hcnt], ?_⟩
    by_cases hc : st.cur.isEmpty
    · have hnil : st.cur = [] := by simpa using hc
      have hc0 : st.cnt = 0 := by rw [hcnt, hnil]; rfl
      rcases hu with hle | hnc
      · left
        show st.cnt + (words u).length ≤ W
        omega
      · right
        refine ⟨u, ?_, hnc⟩
        show st.cur ++ [u] = [u]
        rw [hnil]
        rfl
    · have hlt : ¬ W < st.cnt + (words u).length := by
        intro hw
        apply h
        simp [hw, hc]
      left
      show st.cnt + (words u).length ≤ W
      omega

theorem inv_pushPart {W : Nat} {st : SplitSt} {p0 : List Char}
    (hst : invSt W st) (hp : goodChunk W (strip p0)) : invSt W (pushPart W st p0) := by
  unfold pushPart
  by_cases h : (strip p0).isEmpty
  · simpa [h] using hst
  · simpa [h] using inv_pushUnit hst hp

theorem inv_foldl_parts {W : Nat} : ∀ (parts : List (List Char)) (st : SplitSt),
    invSt W st → (∀ p ∈ parts, noCS p) →
    invSt W (parts.foldl (pushPart W) st) := by
  intro parts
  induction parts with
  | nil => intro st h _; simpa using h
  | cons p parts ih =>
    intro st h hp
    simp only [List.foldl_cons]
    refine ih _ ?_ (fun q hq => hp q (by simp [hq]))
    refine inv_pushPart h (Or.inr ?_)
    intro a ha
    exact hp p (by simp) a (mem_strip_subset ha)

theorem inv_procSentence {W : Nat} {st : SplitSt} {s0 : List Char}
    (hst : invSt W st) : invSt W (procSentence W st s0) := by
  unfold procSentence
  by_cases he : (strip s0).isEmpty
  · simpa [he] using hst
  · by_cases hlen : W < (words (strip s0)).length
    · simp only [he, Bool.false_eq_true, if_false, hlen, if_true]
      refine inv_foldl_parts _ _ hst ?_
      intro p hp a ha
      exact mem_splitOnPc_no_sep isCommaSemi (strip s0) p hp a ha
    · simp only [he, Bool.false_eq_true, if_false, hlen, if_true]
      exact inv_pushUnit hst (Or.inl (by omega))

theorem inv_foldl_sents {W : Nat} : ∀ (sents : List (List Char)) (st : SplitSt),
    invSt W st → invSt W (sents.foldl (procSentence W) st) := by
  intro sents
  induction sents with
  | nil => intro st h; simpa using h
  | cons s sents ih =>
    intro st h
    exact ih _ (inv_procSentence h)

/-! ### Claims C1 and C2 -/

/-- C1 (amended): for every input text and budget, provided no chosen
sentence is itself over budget (so the comma/semicolon sub-split, which
deletes the separator characters, is never taken) and the text contains no
literal `'|'` when the fallback split fires, concatenating the words of all
chunks produced by `_split_text_into_chunks`, in order, reproduces the words
of the input text exactly. -/
theorem c1_chunk_words_preserved (text : List Char) (W : Nat)
    (h1 : ∀ s ∈ chosenSentences text W, (words s).length ≤ W)
    (h2 : (sentSplit text).length = 1 ∧ W < (words text).length → '|' ∉ text) :
    ((_split_text_into_chunks text W).map words).flatten = words text := by
  have hdef : _split_text_into_chunks text W =
      (if (finishChunks ((chosenSentences text W).foldl (procSentence W) ⟨[], [], 0⟩)).isEmpty
       then [text]
       else finishChunks ((chosenSentences text W).foldl (procSentence W) ⟨[], [], 0⟩)) := rfl
  rw [hdef]
  by_cases hc : (finishChunks ((chosenSentences text W).foldl (procSentence W) ⟨[], [], 0⟩)).isEmpty
  · rw [if_pos hc]
    simp
  · rw [if_neg hc, finishChunks_flatWords, flatWords_foldl W _ _ h1,
      words_chosenSentences text W h2]
    rfl

/-- C1 counterexample: for the input `"a, b c"` with budget 2, the single
over-budget sentence is sub-split at the comma and the comma character is
deleted, so the concatenated chunk words differ from the input words
(`"a"` vs `"a,"`); the claim fails as universally stated. -/
theorem c1_counterexample :
    ((_split_text_into_chunks (("a, b c").data) 2).map words).flatten ≠
      words (("a, b c").data) := by
  simp [_split_text_into_chunks, chosenSentences, sentSplit, sentSplitAux, splitHere,
    isTermCh, isSpc, isUpperCh, words, wordsAux, emitW, replDotSpace, splitOnPc, isBar,
    consHead, strip, List.takeWhile, List.dropWhile, procSentence, pushPart, pushUnit,
    isCommaSemi, finishChunks, joinSpace]

/-- C2 (amended): every chunk produced by `_split_text_into_chunks` has word
count at most `W`, except chunks that are single unsplittable runs (no
comma/semicolon — there may be several of them, one per oversized run), and
except the degenerate case where no chunk was assembled and the whole input
text is returned as the single chunk. -/
theorem c2_chunk_bound (text : List Char) (W : Nat) :
    ∀ ch ∈ _split_text_into_chunks text W,
      (words ch).length ≤ W ∨ (∀ a ∈ ch, isCommaSemi a = false) ∨ ch = text := by
  intro ch hch
  have hdef : _split_text_into_chunks text W =
      (if (finishChunks ((chosenSentences text W).foldl (procSentence W) ⟨[], [], 0⟩)).isEmpty
       then [text]
       else finishChunks ((chosenSentences text W).foldl (procSentence W) ⟨[], [], 0⟩)) := rfl
  rw [hdef] at hch
  have hinv : invSt W ((chosenSentences text W).foldl (procSentence W) ⟨[], [], 0⟩) :=
    inv_foldl_sents _ _ ⟨by simp, rfl, Or.inl (Nat.zero_le W)⟩
  by_cases hc : (finishChunks ((chosenSentences text W).foldl (procSentence W) ⟨[], [], 0⟩)).isEmpty
  · rw [if_pos hc] at hch
    right; right
    simpa using hch
  · rw [if_neg hc] at hch
    obtain ⟨hgood, hcnt, hcw⟩ := hinv
    unfold finishChunks at hch
    by_cases hcur : ((chosenSentences text W).foldl (procSentence W) ⟨[], [], 0⟩).cur.isEmpty
    · rw [if_pos hcur] at hch
      rcases hgood ch hch with h | h
      · exact Or.inl h
      · exact Or.inr (Or.inl h)
    · rw [if_neg hcur] at hch
      rcases List.mem_append.mp hch with hm | hm
      · rcases hgood ch hm with h | h
        · exact Or.inl h
        · exact Or.inr (Or.inl h)
      · have hj : ch = joinSpace ((chosenSentences text W).foldl (procSentence W) ⟨[], [], 0⟩).cur := by
          simpa using hm
        rcases good_joinSpace ⟨hgood, hcnt, hcw⟩ with h | h
        · exact Or.inl (hj ▸ h)
        · exact Or.inr (Or.inl (hj ▸ h))

/-- C2 counterexample: for the input `"a b. C d."` with budget 1, the
splitter emits two chunks of two words each, so more than one chunk exceeds
the budget; the "single unsplittable atomic run" exception of the claim fails
as stated. -/
theorem c2_counterexample :
    ¬ (((_split_text_into_chunks (("a b. C d.").data) 1).filter
        (fun ch => decide (1 < (words ch).length))).length ≤ 1) := by
  simp [_split_text_into_chunks, chosenSentences, sentSplit, sentSplitAux, splitHere,
    isTermCh, isSpc, isUpperCh, words, wordsAux, emitW, replDotSpace, splitOnPc, isBar,
    consHead, strip, List.takeWhile, List.dropWhile, procSentence, pushPart, pushUnit,
    isCommaSemi, finishChunks, joinSpace]

/-- Witness for C1: at the concrete input `"a b. c d"` with budget 2 the
hypotheses hold (the fallback split fires, both pieces fit the budget, no
`'|'` in the text) and the amended claim is obtained from the theorem. -/
theorem c1_witness :
    (∀ s ∈ chosenSentences (("a b. c d").data) 2, (words s).length ≤ 2) ∧
      (((_split_text_into_chunks (("a b. c d").data) 2).map words).flatten =
        words (("a b. c d").data)) :=
  ⟨by
    simp [chosenSentences, sentSplit, sentSplitAux, splitHere, isTermCh, isSpc, isUpperCh,
      words, wordsAux, emitW, replDotSpace, splitOnPc, isBar, consHead, strip,
      List.takeWhile, List.dropWhile],
   c1_chunk_words_preserved _ 2
    (by
      simp [chosenSentences, sentSplit, sentSplitAux, splitHere, isTermCh, isSpc, isUpperCh,
        words, wordsAux, emitW, replDotSpace, splitOnPc, isBar, consHead, strip,
        List.takeWhile, List.dropWhile])
    (fun _ => by decide)⟩

/-- Witness for C2: the chunk `"a b."` produced for input `"a b. C d."` with
budget 1 is a member of the output and satisfies the amended bound (it is an
unsplittable comma-free run). -/
theorem c2_witness :
    (("a b.").data ∈ _split_text_into_chunks (("a b. C d.").data) 1) ∧
      ((words (("a b.").data)).length ≤ 1 ∨
        (∀ a ∈ ("a b.").data, isCommaSemi a = false) ∨
        ("a b.").data = ("a b. C d.").data) :=
  ⟨by
    simp [_split_text_into_chunks, chosenSentences, sentSplit, sentSplitAux, splitHere,
      isTermCh, isSpc, isUpperCh, words, wordsAux, emitW, replDotSpace, splitOnPc, isBar,
      consHead, strip, List.takeWhile, List.dropWhile, procSentence, pushPart, pushUnit,
      isCommaSemi, finishChunks, joinSpace],
   c2_chunk_bound _ 1 _
    (by
      simp [_split_text_into_chunks, chosenSentences, sentSplit, sentSplitAux, splitHere,
        isTermCh, isSpc, isUpperCh, words, wordsAux, emitW, replDotSpace, splitOnPc, isBar,
        consHead, strip, List.takeWhile, List.dropWhile, procSentence, pushPart, pushUnit,
        isCommaSemi, finishChunks, joinSpace])⟩

/-! ### `VibeVoiceCore._parse_pause_keywords` (vibevoice_core.py:339-363)

The marker regex is `\[pause(?::(\d+))?\]`: the literal `"[pause"`, then
either `"]"` (default 1000 ms) or `":"`, one or more digits (maximal run) and
`"]"`.  Backtracking inside the digit run cannot succeed, since a shorter run
is followed by a digit, not `']'`. -/

inductive Segment where
  | text : List Char → Segment
  | pause : Nat → Segment
deriving DecidableEq

/-- Decimal value of a digit character. -/
def digitVal (c : Char) : Nat := c.toNat - ('0').toNat

/-- Python `int(digit_string)`. -/
def natOfDigits (ds : List Char) : Nat := ds.foldl (fun n c => 10 * n + digitVal c) 0

/-- Try to match the pause-marker regex at the head of the list; on success
return the duration (ms) and the remaining input. -/
def matchPause : List Char → Option (Nat × List Char)
  | '[' :: 'p' :: 'a' :: 'u' :: 's' :: 'e' :: rest =>
    match rest with
    | ']' :: r2 => some (1000, r2)
    | ':' :: r2 =>
      match r2.takeWhile isDigitCh, r2.dropWhile isDigitCh with
      | [], _ => none
      | ds, ']' :: r3 => some (natOfDigits ds, r3)
      | _, _ => none
    | _ => none
  | _ => none

theorem matchPause_shrinks : ∀ l n r, matchPause l = some (n, r) → r.length < l.length := by
  intro l n r h
  unfold matchPause at h
  split at h
  · split at h
    · injection h with h1
      injection h1 with h2 h3
      subst h3
      simp only [List.length_cons]
      omega
    · split at h
      · exact absurd h (by simp)
      · rename_i x1 rest r2 x2 ds r3 hdropEq hne
        injection h with h1
        injection h1 with h2 h3
        subst h3
        have hlen := dropWhile_len_le isDigitCh r2
        rw [hdropEq] at hlen
        simp only [List.length_cons] at hlen ⊢
        omega
      · exact absurd h (by simp)
    · exact absurd h (by simp)
  · exact absurd h (by simp)

/-- Emit the text accumulated between markers, stripped, dropped if empty
(vibevoice_core.py:346-349 and 355-358). -/
def emitText (acc : List Char) : List Segment :=
  if (strip acc).isEmpty then [] else [Segment.text (strip acc)]

/-- The `re.finditer` scan of `_parse_pause_keywords`: `acc` is the text
accumulated since the end of the last match. -/
def parsePauseAux : List Char → List Char → List Segment
  | [], acc => emitText acc
  | c :: cs, acc =>
    if h : (matchPause (c :: cs)).isSome then
      let pr := (matchPause (c :: cs)).get h
      emitText acc ++ Segment.pause pr.1 :: parsePauseAux pr.2 []
    else parsePauseAux cs (acc ++ [c])
termination_by l _ => l.length
decreasing_by
  · exact matchPause_shrinks _ _ _ (Option.some_get h).symm
  · exact Nat.lt_succ_self _

/-- `VibeVoiceCore._parse_pause_keywords(text)`: the scan, with the final
`if not segments: segments.append(('text', text))` fallback that returns the
raw (unstripped) input. -/
def _parse_pause_keywords (text : List Char) : List Segment :=
  if (parsePauseAux text []).isEmpty then [Segment.text text] else parsePauseAux text []

/-- `VibeVoiceCore._generate_silence(duration_ms, sample_rate)`
(vibevoice_core.py:365-369): `int(sample_rate * duration_ms / 1000.0)` zero
samples, modelled with exact arithmetic. -/
def _generate_silence (duration_ms : Nat) (sample_rate : Nat) : List ℚ :=
  List.replicate (sample_rate * duration_ms / 1000) 0

theorem parsePauseAux_nil (acc : List Char) : parsePauseAux [] acc = emitText acc := by
  rw [parsePauseAux]

theorem parsePauseAux_nomatch (c : Char) (cs acc : List Char)
    (h : matchPause (c :: cs) = none) :
    parsePauseAux (c :: cs) acc = parsePauseAux cs (acc ++ [c]) := by
  rw [parsePauseAux]
  simp [h]

theorem parsePauseAux_matched (c : Char) (cs acc : List Char) (n : Nat) (rest : List Char)
    (h : matchPause (c :: cs) = some (n, rest)) :
    parsePauseAux (c :: cs) acc = emitText acc ++ Segment.pause n :: parsePauseAux rest [] := by
  rw [parsePauseAux]
  simp [h]

/-- Scanning a region with no marker accumulates it all into one stripped
text segment. -/
theorem parsePauseAux_nomarker : ∀ (l acc : List Char),
    (∀ t ∈ l.tails, matchPause t = none) →
    parsePauseAux l acc = emitText (acc ++ l) := by
  intro l
  induction l with
  | nil =>
    intro acc _
    rw [parsePauseAux_nil, List.append_nil]
  | cons c cs ih =>
    intro acc h
    have hself : matchPause (c :: cs) = none := by
      refine h (c :: cs) ?_
      rw [List.tails_cons]
      exact List.mem_cons_self _ _
    rw [parsePauseAux_nomatch c cs acc hself]
    rw [ih (acc ++ [c]) (fun t ht => h t (by rw [List.tails_cons]; exact List.mem_cons_of_mem _ ht))]
    simp

/-- Scanning up to the first marker: the text before it is emitted stripped,
then the pause segment, then the scan of the remainder. -/
theorem parsePauseAux_marker (m s : List Char) (N : Nat)
    (hm : matchPause (m ++ s) = some (N, s)) :
    ∀ (p acc : List Char),
      (∀ t ∈ p.tails, t ≠ [] → matchPause (t ++ (m ++ s)) = none) →
      parsePauseAux (p ++ (m ++ s)) acc =
        emitText (acc ++ p) ++ Segment.pause N :: parsePauseAux s [] := by
  intro p
  induction p with
  | nil =>
    intro acc _
    cases hm' : m with
    | nil =>
      exfalso
      rw [hm'] at hm
      have := matchPause_shrinks _ _ _ hm
      simp at this
    | cons c m' =>
      subst hm'
      simp only [List.nil_append, List.cons_append]
      rw [parsePauseAux_matched c (m' ++ s) acc N s (by simpa using hm)]
      rw [List.append_nil]
  | cons c p' ih =>
    intro acc h
    have hnone : matchPause ((c :: p') ++ (m ++ s)) = none := by
      refine h (c :: p') ?_ (by simp)
      rw [List.tails_cons]
      exact List.mem_cons_self _ _
    simp only [List.cons_append] at hnone ⊢
    rw [parsePauseAux_nomatch c (p' ++ (m ++ s)) acc hnone]
    rw [ih (acc ++ [c])
      (fun t ht hne => h t (by rw [List.tails_cons]; exact List.mem_cons_of_mem _ ht) hne)]
    simp

/-- The literal `[pause:N]` marker for a digit string. -/
def pauseMarkerN (ds : List Char) : List Char := ("[pause:").data ++ ds ++ [ ']' ]

/-- The literal bare `[pause]` marker. -/
def pauseMarkerBare : List Char := ("[pause]").data

theorem takeWhile_all_stop {p : Char → Bool} :
    ∀ (xs : List Char) (y : Char) (z : List Char),
      (∀ c ∈ xs, p c = true) → p y = false →
      (xs ++ y :: z).takeWhile p = xs ∧ (xs ++ y :: z).dropWhile p = y :: z := by
  intro xs
  induction xs with
  | nil =>
    intro y z _ hy
    constructor
    · rw [List.nil_append, List.takeWhile_cons_of_neg (by simp [hy])]
    · rw [List.nil_append, List.dropWhile_cons_of_neg (by simp [hy])]
  | cons x xs ih =>
    intro y z hall hy
    have hx : p x = true := hall x (by simp)
    obtain ⟨h1, h2⟩ := ih y z (fun c hc => hall c (by simp [hc])) hy
    constructor
    · rw [List.cons_append, List.takeWhile_cons_of_pos hx, h1]
    · rw [List.cons_append, List.dropWhile_cons_of_pos hx, h2]

theorem matchPause_markerN (ds s : List Char) (h1 : ds ≠ [])
    (h2 : ∀ c ∈ ds, isDigitCh c = true) :
    matchPause (pauseMarkerN ds ++ s) = some (natOfDigits ds, s) := by
  obtain ⟨htake, hdrop⟩ := takeWhile_all_stop ds ']' s h2 (by decide)
  have hform : pauseMarkerN ds ++ s =
      '[' :: 'p' :: 'a' :: 'u' :: 's' :: 'e' :: ':' :: (ds ++ ']' :: s) := by
    show (("[pause:").data ++ ds ++ [ ']' ]) ++ s = _
    rw [show ("[pause:").data = ['[', 'p', 'a', 'u', 's', 'e', ':'] from rfl]
    simp [List.append_assoc]
  rw [hform]
  rw [matchPause]
  rw [htake, hdrop]
  cases ds with
  | nil => exact absurd rfl h1
  | cons d ds' => rfl

theorem matchPause_markerBare (s : List Char) :
    matchPause (pauseMarkerBare ++ s) = some (1000, s) := rfl

/-- C3: for a script `p ++ "[pause:N]" ++ s` whose prefix `p` contains no
pause marker, the parser emits the stripped prefix text (if any), then a
`PauseSegment` of exactly `N` milliseconds at that position (and a bare
`[pause]` marker yields 1000 ms); assembly materialises such a segment as
exactly `N * sample_rate / 1000` zero samples. -/
theorem c3_pause_marker_parsed (p ds s : List Char) (sr : Nat)
    (h1 : ds ≠ []) (h2 : ∀ c ∈ ds, isDigitCh c = true)
    (h3 : ∀ t ∈ p.tails, t ≠ [] → matchPause (t ++ (pauseMarkerN ds ++ s)) = none)
    (h4 : ∀ t ∈ p.tails, t ≠ [] → matchPause (t ++ (pauseMarkerBare ++ s)) = none) :
    parsePauseAux (p ++ (pauseMarkerN ds ++ s)) [] =
        emitText p ++ Segment.pause (natOfDigits ds) :: parsePauseAux s [] ∧
      parsePauseAux (p ++ (pauseMarkerBare ++ s)) [] =
        emitText p ++ Segment.pause 1000 :: parsePauseAux s [] ∧
      (_generate_silence (natOfDigits ds) sr).length = natOfDigits ds * sr / 1000 ∧
      ∀ x ∈ _generate_silence (natOfDigits ds) sr, x = 0 := by
  refine ⟨?_, ?_, ?_, ?_⟩
  · have h := parsePauseAux_marker (pauseMarkerN ds) s (natOfDigits ds)
      (matchPause_markerN ds s h1 h2) p [] h3
    simpa using h
  · have h := parsePauseAux_marker pauseMarkerBare s 1000 (matchPause_markerBare s) p [] h4
    simpa using h
  · simp [_generate_silence, Nat.mul_comm]
  · intro x hx
    exact List.eq_of_mem_replicate hx

/-- Witness for C3: concrete script `"Hi." ++ "[pause:500]" ++ " Bye"`. -/
theorem c3_witness :
    (("500").data ≠ [] ∧ ∀ c ∈ ("500").data, isDigitCh c = true) ∧
      (parsePauseAux ((("Hi.").data) ++ (pauseMarkerN (("500").data) ++ ((" Bye").data))) [] =
          emitText (("Hi.").data) ++
            Segment.pause (natOfDigits (("500").data)) :: parsePauseAux ((" Bye").data) [] ∧
        parsePauseAux ((("Hi.").data) ++ (pauseMarkerBare ++ ((" Bye").data))) [] =
          emitText (("Hi.").data) ++ Segment.pause 1000 :: parsePauseAux ((" Bye").data) [] ∧
        (_generate_silence (natOfDigits (("500").data)) 24000).length =
          natOfDigits (("500").data) * 24000 / 1000 ∧
        ∀ x ∈ _generate_silence (natOfDigits (("500").data)) 24000, x = 0) :=
  ⟨⟨by decide, by decide⟩,
   c3_pause_marker_parsed (("Hi.").data) (("500").data) ((" Bye").data) 24000
    (by decide) (by decide) (by decide) (by decide)⟩

/-- C7 (amended): for input with no pause marker, the parser returns exactly
one `TextSegment`; its content is the trimmed input when that is nonempty,
and the raw (possibly empty or whitespace-only) input otherwise — in the
latter case an empty or untrimmed text segment is emitted. -/
theorem c7_unmarked_single_segment (text : List Char)
    (h : ∀ t ∈ text.tails, matchPause t = none) :
    _parse_pause_keywords text =
      [Segment.text (if (strip text).isEmpty then text else strip text)] := by
  unfold _parse_pause_keywords
  have hp := parsePauseAux_nomarker text [] h
  rw [List.nil_append] at hp
  rw [hp]
  by_cases hs : (strip text).isEmpty
  · simp [emitText, hs]
  · simp [emitText, hs]

/-- C7 counterexample: the empty input contains no pause marker, yet the
parser emits the empty text segment (the final fallback appends the raw
input), contradicting "no empty text segment is ever emitted". -/
theorem c7_counterexample : Segment.text [] ∈ _parse_pause_keywords [] := by
  simp [_parse_pause_keywords, parsePauseAux_nil, emitText, strip]

/-- Witness for C7: the unmarked input `" hi "` yields exactly one text
segment holding the trimmed content `"hi"`. -/
theorem c7_witness :
    (∀ t ∈ ((" hi ").data).tails, matchPause t = none) ∧
      _parse_pause_keywords ((" hi ").data) =
        [Segment.text (if (strip ((" hi ").data)).isEmpty then (" hi ").data
          else strip ((" hi ").data))] :=
  ⟨by decide, c7_unmarked_single_segment ((" hi ").data) (by decide)⟩

/-! ### `VibeVoiceCore.generate_speech` batch orchestration
(vibevoice_core.py:450-522) -/

/-- Abstraction of `_generate_chunk` (vibevoice_core.py:524-594): the opaque
inference engine, invoked once per chunk; `none` models an exception. -/
def GenFn : Type := List Char → Option (List ℚ)

/-- The chunk list submitted to the engine for one segment
(vibevoice_core.py:484-513): a pause invokes no chunk; an over-budget text
segment is split; other text segments are one chunk. -/
def segChunks (W : Nat) : Segment → List (List Char)
  | Segment.pause _ => []
  | Segment.text t => if W < (words t).length then _split_text_into_chunks t W else [t]

/-- All engine chunks of a script, in invocation order. -/
def chunkSeq (text : List Char) (W : Nat) : List (List Char) :=
  ((_parse_pause_keywords text).map (segChunks W)).flatten

/-- Generate the chunks of one text segment in order; the first engine
exception aborts the loop (vibevoice_core.py:499-505). -/
def mapMO (gen : GenFn) : List (List Char) → Option (List (List ℚ))
  | [] => some []
  | c :: cs =>
    match gen c with
    | none => none
    | some a => (mapMO gen cs).map (fun l => a :: l)

/-- The `for seg in segments` loop of `generate_speech`, collecting
`all_audio_segments`; an engine exception propagates out. -/
def runSegs (gen : GenFn) (W : Nat) : List Segment → Option (List (List ℚ))
  | [] => some []
  | Segment.pause n :: rest =>
    (runSegs gen W rest).map (fun l => _generate_silence n 24000 :: l)
  | Segment.text t :: rest =>
    match mapMO gen (segChunks W (Segment.text t)) with
    | none => none
    | some as => (runSegs gen W rest).map (fun l => as ++ l)

/-- `VibeVoiceCore.generate_speech(text, ...)` in batch mode: parse, generate
per segment, concatenate; `none` when a chunk fails (exception propagated,
no partial buffer) or when no audio segment was produced. -/
def VibeVoiceCore.generate_speech (gen : GenFn) (text : List Char) (W : Nat) :
    Option (List ℚ) :=
  match runSegs gen W (_parse_pause_keywords text) with
  | none => none
  | some segs => if segs.isEmpty then none else some segs.flatten

/-- The chunks actually submitted to the engine within one text segment:
everything up to and including the first failing chunk. -/
def invokedIn (gen : GenFn) : List (List Char) → List (List Char) × Bool
  | [] => ([], true)
  | c :: cs =>
    if (gen c).isSome then (c :: (invokedIn gen cs).1, (invokedIn gen cs).2)
    else ([c], false)

/-- The chunks submitted to the engine over the whole script: generation
stops at the first failure, later segments are never reached. -/
def invokedChunks (gen : GenFn) (W : Nat) : List Segment → List (List Char)
  | [] => []
  | Segment.pause _ :: rest => invokedChunks gen W rest
  | Segment.text t :: rest =>
    if (invokedIn gen (segChunks W (Segment.text t))).2 then
      (invokedIn gen (segChunks W (Segment.text t))).1 ++ invokedChunks gen W rest
    else (invokedIn gen (segChunks W (Segment.text t))).1

theorem takeWhile_append_all {α : Type} (p : α → Bool) :
    ∀ {xs : List α} (z : List α), xs.all p = true →
      ((xs ++ z).takeWhile p = xs ++ z.takeWhile p ∧ (xs ++ z).dropWhile p = z.dropWhile p) := by
  intro xs
  induction xs with
  | nil => intro z _; simp
  | cons x xs ih =>
    intro z hall
    have hx : p x = true := by
      have := List.all_eq_true.mp hall x (by simp)
      exact this
    have hxs : xs.all p = true :=
      List.all_eq_true.mpr (fun a ha => List.all_eq_true.mp hall a (by simp [ha]))
    obtain ⟨h1, h2⟩ := ih z hxs
    constructor
    · rw [List.cons_append, List.takeWhile_cons_of_pos hx, h1, List.cons_append]
    · rw [List.cons_append, List.dropWhile_cons_of_pos hx, h2]

theorem takeWhile_append_fail {α : Type} (p : α → Bool) :
    ∀ {xs : List α} (z : List α), xs.all p = false →
      ((xs ++ z).takeWhile p = xs.takeWhile p ∧
        (xs ++ z).dropWhile p = xs.dropWhile p ++ z ∧ xs.dropWhile p ≠ []) := by
  intro xs
  induction xs with
  | nil => intro z h; simp at h
  | cons x xs ih =>
    intro z hall
    by_cases hx : p x
    · have hxs : xs.all p = false := by
        cases h' : xs.all p with
        | true => rw [List.all_cons, hx, h'] at hall; simp at hall
        | false => rfl
      obtain ⟨h1, h2, h3⟩ := ih z hxs
      refine ⟨?_, ?_, ?_⟩
      · rw [List.cons_append, List.takeWhile_cons_of_pos hx, h1,
          List.takeWhile_cons_of_pos hx]
      · rw [List.cons_append, List.dropWhile_cons_of_pos hx, h2,
          List.dropWhile_cons_of_pos hx]
      · rw [List.dropWhile_cons_of_pos hx]
        exact h3
    · have hx' : p x = false := by simpa using hx
      refine ⟨?_, ?_, ?_⟩
      · rw [List.cons_append, List.takeWhile_cons_of_neg (by simp [hx']),
          List.takeWhile_cons_of_neg (by simp [hx'])]
      · rw [List.cons_append, List.dropWhile_cons_of_neg (by simp [hx']),
          List.dropWhile_cons_of_neg (by simp [hx'])]
        rw [List.cons_append]
      · rw [List.dropWhile_cons_of_neg (by simp [hx'])]
        simp

theorem take_one_append {α : Type} {xs : List α} (z : List α) (h : xs ≠ []) :
    (xs ++ z).take 1 = xs.take 1 := by
  cases xs with
  | nil => exact absurd rfl h
  | cons x xs => simp

theorem mapMO_all_ok {gen : GenFn} :
    ∀ {cs : List (List Char)}, cs.all (fun c => (gen c).isSome) = true →
      ((mapMO gen cs).isSome ∧ invokedIn gen cs = (cs, true)) := by
  intro cs
  induction cs with
  | nil => intro _; exact ⟨by simp [mapMO], rfl⟩
  | cons c cs ih =>
    intro hall
    have hc : (gen c).isSome = true := List.all_eq_true.mp hall c (by simp)
    have hcs : cs.all (fun c => (gen c).isSome) = true :=
      List.all_eq_true.mpr (fun a ha => List.all_eq_true.mp hall a (by simp [ha]))
    obtain ⟨h1, h2⟩ := ih hcs
    constructor
    · rw [mapMO]
      obtain ⟨a, ha⟩ := Option.isSome_iff_exists.mp hc
      rw [ha]
      simpa using h1
    · rw [invokedIn, if_pos hc, h2]

theorem mapMO_fail {gen : GenFn} :
    ∀ {cs : List (List Char)}, cs.all (fun c => (gen c).isSome) = false →
      (mapMO gen cs = none ∧
        invokedIn gen cs =
          (cs.takeWhile (fun c => (gen c).isSome) ++
            (cs.dropWhile (fun c => (gen c).isSome)).take 1, false)) := by
  intro cs
  induction cs with
  | nil => intro h; simp at h
  | cons c cs ih =>
    intro hall
    by_cases hc : (gen c).isSome
    · have hcs : cs.all (fun c => (gen c).isSome) = false := by
        cases h' : cs.all (fun c => (gen c).isSome) with
        | true => rw [List.all_cons, hc, h'] at hall; simp at hall
        | false => rfl
      obtain ⟨h1, h2⟩ := ih hcs
      constructor
      · rw [mapMO]
        obtain ⟨a, ha⟩ := Option.isSome_iff_exists.mp hc
        rw [ha, h1]
        rfl
      · rw [invokedIn, if_pos hc, h2]
        simp [List.takeWhile_cons, List.dropWhile_cons, hc]
    · have hc' : (gen c).isSome = false := by simpa using hc
      constructor
      · rw [mapMO]
        have : gen c = none := by
          cases hg : gen c with
          | none => rfl
          | some a => rw [hg] at hc'; simp at hc'
        rw [this]
      · rw [invokedIn, if_neg (by simp [hc']), List.takeWhile_cons_of_neg (by simp [hc']),
          List.dropWhile_cons_of_neg (by simp [hc'])]
        simp

theorem runSegs_fail {gen : GenFn} {W : Nat} :
    ∀ {segs : List Segment},
      ((segs.map (segChunks W)).flatten.all (fun c => (gen c).isSome) = false) →
      (runSegs gen W segs = none ∧
        invokedChunks gen W segs =
          (segs.map (segChunks W)).flatten.takeWhile (fun c => (gen c).isSome) ++
            ((segs.map (segChunks W)).flatten.dropWhile (fun c => (gen c).isSome)).take 1) := by
  intro segs
  induction segs with
  | nil => intro h; simp at h
  | cons seg rest ih =>
    intro hall
    cases seg with
    | pause n =>
      have hrest := ih (by simpa [segChunks] using hall)
      obtain ⟨h1, h2⟩ := hrest
      refine ⟨?_, ?_⟩
      · rw [runSegs, h1]
        rfl
      · rw [invokedChunks, h2]
        simp [segChunks]
    | text t =>
      simp only [List.map_cons, List.flatten_cons] at hall ⊢
      cases hcs : (segChunks W (Segment.text t)).all (fun c => (gen c).isSome) with
      | false =>
        obtain ⟨h1, h2⟩ := mapMO_fail hcs
        obtain ⟨ht, hd, hne⟩ := takeWhile_append_fail (fun c => (gen c).isSome)
          ((rest.map (segChunks W)).flatten) hcs
        refine ⟨?_, ?_⟩
        · rw [runSegs, h1]
        · rw [invokedChunks, h2]
          simp only [if_false, Bool.false_eq_true]
          rw [ht, hd, take_one_append _ hne]
      | true =>
        have hrest : (rest.map (segChunks W)).flatten.all (fun c => (gen c).isSome) = false := by
          rw [List.all_append, hcs] at hall
          simpa using hall
        obtain ⟨h1, h2⟩ := mapMO_all_ok hcs
        obtain ⟨hr1, hr2⟩ := ih hrest
        obtain ⟨ht, hd⟩ := takeWhile_append_all (fun c => (gen c).isSome)
          ((rest.map (segChunks W)).flatten) hcs
        refine ⟨?_, ?_⟩
        · rw [runSegs]
          obtain ⟨as, has⟩ := Option.isSome_iff_exists.mp h1
          rw [has, hr1]
          rfl
        · rw [invokedChunks, h2]
          simp only [if_true]
          rw [hr2, ht, hd, List.append_assoc]

/-- C4: in batch generation, if the engine fails on some chunk of the script,
`generate_speech` returns the surfaced error and no partial audio buffer, and
the chunks actually submitted to the engine are exactly those before the
first failing chunk plus the failing chunk itself — the remaining chunks are
never generated. -/
theorem c4_batch_abort (gen : GenFn) (text : List Char) (W : Nat)
    (h : (chunkSeq text W).all (fun c => (gen c).isSome) = false) :
    VibeVoiceCore.generate_speech gen text W = none ∧
      invokedChunks gen W (_parse_pause_keywords text) =
        (chunkSeq text W).takeWhile (fun c => (gen c).isSome) ++
          ((chunkSeq text W).dropWhile (fun c => (gen c).isSome)).take 1 := by
  obtain ⟨h1, h2⟩ := @runSegs_fail gen W (_parse_pause_keywords text)
    (by simpa [chunkSeq] using h)
  refine ⟨?_, ?_⟩
  · unfold VibeVoiceCore.generate_speech
    rw [h1]
  · rw [h2]
    simp [chunkSeq]

/-- Witness for C4: a script with two text chunks and a pause, where the
engine fails on the second chunk `"y"`: the call yields no audio, and only
`"x"` and the failing `"y"` were submitted. -/
theorem c4_witness :
    ((chunkSeq (("x [pause:5] y").data) 250).all
        (fun c => ((if c = [ 'y' ] then none else some [(1 : ℚ)]).isSome)) = false) ∧
      (VibeVoiceCore.generate_speech (fun c => if c = [ 'y' ] then none else some [(1 : ℚ)])
          (("x [pause:5] y").data) 250 = none ∧
        invokedChunks (fun c => if c = [ 'y' ] then none else some [(1 : ℚ)]) 250
            (_parse_pause_keywords (("x [pause:5] y").data)) =
          (chunkSeq (("x [pause:5] y").data) 250).takeWhile
              (fun c => ((if c = [ 'y' ] then none else some [(1 : ℚ)]).isSome)) ++
            ((chunkSeq (("x [pause:5] y").data) 250).dropWhile
              (fun c => ((if c = [ 'y' ] then none else some [(1 : ℚ)]).isSome))).take 1) :=
  ⟨by
    simp [chunkSeq, _parse_pause_keywords, parsePauseAux, matchPause, emitText, strip,
      isSpc, isDigitCh, natOfDigits, digitVal, segChunks, words, wordsAux, emitW,
      List.takeWhile, List.dropWhile],
   c4_batch_abort _ _ 250
    (by
      simp [chunkSeq, _parse_pause_keywords, parsePauseAux, matchPause, emitText, strip,
        isSpc, isDigitCh, natOfDigits, digitVal, segChunks, words, wordsAux, emitW,
        List.takeWhile, List.dropWhile])⟩

/-! ### `VibeVoiceCore.free_memory` / `load_model`
(vibevoice_core.py:49-72 and 133-276) -/

/-- Opaque loaded engine instance. -/
structure EngineModel where
  id : Nat
deriving DecidableEq

/-- Opaque loaded processor instance. -/
structure ProcHandle where
  id : Nat
deriving DecidableEq

/-- The lifecycle-relevant mutable fields of `VibeVoiceCore`. -/
structure CoreState where
  model : Option EngineModel
  processor : Option ProcHandle
  current_model : Option (List Char)
  current_attention_type : Option (List Char)
  current_quantize_llm : List Char
  current_lora_path : Option (List Char)
deriving DecidableEq

/-- `VibeVoiceCore.free_memory`: drop model and processor, reset the model
name and quantization tag (attention type and adapter path are retained, as
in the source), release caches and force collection. -/
def free_memory (st : CoreState) : CoreState :=
  ⟨none, none, none, st.current_attention_type, ("full precision").data,
    st.current_lora_path⟩

/-- Observable lifecycle events of one `load_model` call. -/
inductive LoadEv where
  | freed
  | loaded
deriving DecidableEq

/-- Environment of a `load_model` call: file system, CUDA availability, the
engine loader and the tokenizer search, abstracted. -/
structure LoadEnv where
  model_exists : Bool
  cuda_available : Bool
  load_ok : Bool
  tokenizer_found : Bool
  new_model : EngineModel
  new_processor : ProcHandle

/-- Result of a `load_model` call: outcome, state afterwards, events. -/
structure LoadOut where
  res : Except (List Char) Unit
  st : CoreState
  evs : List LoadEv

/-- The reload condition of vibevoice_core.py:141-148.  Note the `or ""`
normalisation: a `None` adapter path and an empty-string adapter path compare
equal. -/
def needsReload (st : CoreState) (name att quant : List Char)
    (lora : Option (List Char)) : Bool :=
  st.model.isNone ||
    decide (st.current_model ≠ some name) ||
    decide (st.current_attention_type ≠ some att) ||
    decide (st.current_quantize_llm ≠ quant) ||
    decide (st.current_lora_path.getD [] ≠ lora.getD [])

/-- `VibeVoiceCore.load_model(model_name, attention_type, quantize_llm,
lora_path)`: reuse when nothing changed; otherwise free the existing model
first, then check the quantization/CUDA requirement, load the model, find the
tokenizer, and finally commit the new configuration. -/
def load_model (st : CoreState) (env : LoadEnv) (name att quant : List Char)
    (lora : Option (List Char)) : LoadOut :=
  if ¬ env.model_exists then ⟨.error (("Model not found").data), st, []⟩
  else if ¬ needsReload st name att quant lora then ⟨.ok (), st, []⟩
  else
    let st1 := if st.model.isSome then free_memory st else st
    let evs1 : List LoadEv := if st.model.isSome then [LoadEv.freed] else []
    if (quant = ("4bit").data ∨ quant = ("8bit").data) ∧ ¬ env.cuda_available then
      ⟨.error (("Model loading failed: LLM quantization requires a CUDA GPU").data),
        st1, evs1⟩
    else if ¬ env.load_ok then
      ⟨.error (("Model loading failed").data), st1, evs1⟩
    else
      let st2 : CoreState := ⟨some env.new_model, st1.processor, st1.current_model,
        st1.current_attention_type, st1.current_quantize_llm, st1.current_lora_path⟩
      if ¬ env.tokenizer_found then
        ⟨.error (("Model loading failed: Qwen tokenizer not found").data), st2,
          evs1 ++ [LoadEv.loaded]⟩
      else
        ⟨.ok (),
          ⟨some env.new_model, some env.new_processor, some name, some att, quant, lora⟩,
          evs1 ++ [LoadEv.loaded]⟩

/-- C5 (amended): a load request whose configuration matches the loaded
handle's reuses it untouched (no teardown, no load); a request that differs
in model name, attention type, quantization mode, or adapter path — with a
missing adapter path and an empty adapter path counting as equal — tears the
current handle down first, and any load happens strictly after the
teardown. -/
theorem c5_reuse_or_teardown (st : CoreState) (env : LoadEnv)
    (name att quant : List Char) (lora : Option (List Char)) (m : EngineModel)
    (hm : st.model = some m) (hex : env.model_exists = true) :
    (st.current_model = some name → st.current_attention_type = some att →
      st.current_quantize_llm = quant → st.current_lora_path = lora →
      load_model st env name att quant lora = ⟨.ok (), st, []⟩) ∧
    ((st.current_model ≠ some name ∨ st.current_attention_type ≠ some att ∨
        st.current_quantize_llm ≠ quant ∨ st.current_lora_path.getD [] ≠ lora.getD []) →
      (load_model st env name att quant lora).evs = [LoadEv.freed] ∨
        (load_model st env name att quant lora).evs = [LoadEv.freed, LoadEv.loaded]) := by
  constructor
  · intro h1 h2 h3 h4
    have hnr : needsReload st name att quant lora = false := by
      simp [needsReload, hm, h1, h2, h3, h4]
    unfold load_model
    rw [if_neg (by simp [hex]), if_pos (by simp [hnr])]
  · intro hdiff
    have hnr : needsReload st name att quant lora = true := by
      rcases hdiff with h | h | h | h <;> simp [needsReload, h]
    have hsome : st.model.isSome = true := by simp [hm]
    unfold load_model
    rw [if_neg (by simp [hex]), if_neg (by simp [hnr])]
    simp only [hsome, if_true]
    split_ifs <;> simp

/-- C5 counterexample: with a handle loaded with no adapter path
(`current_lora_path = None`) and an otherwise identical request carrying the
empty adapter path `""`, the configurations differ as values, yet `load_model`
reuses the handle without any teardown — the `or ""` normalisation swallows
the difference. -/
theorem c5_counterexample :
    load_model
        ⟨some ⟨0⟩, some ⟨0⟩, some (("m").data), some (("auto").data),
          ("full precision").data, none⟩
        ⟨true, true, true, true, ⟨1⟩, ⟨1⟩⟩
        (("m").data) (("auto").data) (("full precision").data) (some []) =
      ⟨.ok (),
        ⟨some ⟨0⟩, some ⟨0⟩, some (("m").data), some (("auto").data),
          ("full precision").data, none⟩, []⟩ ∧
      (none : Option (List Char)) ≠ some [] := by
  constructor
  · rfl
  · simp

/-- Witness for C5: a loaded handle receives a request for a different model
name; teardown happens and precedes the load. -/
theorem c5_witness :
    ((⟨some ⟨0⟩, some ⟨0⟩, some (("m").data), some (("auto").data),
        ("full precision").data, none⟩ : CoreState).model = some (⟨0⟩ : EngineModel)) ∧
      ((load_model
          ⟨some ⟨0⟩, some ⟨0⟩, some (("m").data), some (("auto").data),
            ("full precision").data, none⟩
          ⟨true, true, true, true, ⟨1⟩, ⟨1⟩⟩
          (("m2").data) (("auto").data) (("full precision").data) none).evs =
            [LoadEv.freed] ∨
        (load_model
          ⟨some ⟨0⟩, some ⟨0⟩, some (("m").data), some (("auto").data),
            ("full precision").data, none⟩
          ⟨true, true, true, true, ⟨1⟩, ⟨1⟩⟩
          (("m2").data) (("auto").data) (("full precision").data) none).evs =
            [LoadEv.freed, LoadEv.loaded]) :=
  ⟨rfl,
   (c5_reuse_or_teardown _ _ (("m2").data) (("auto").data) (("full precision").data)
      none ⟨0⟩ rfl rfl).2 (Or.inl (by simp))⟩

/-! ### `TTSService._apply_quantization` (tts_service.py:202-357) -/

/-- Abstract service model: the quantization applied, per mutated component —
the language-model backbone and the `lm_head`, the two components the service
quantizes in place, in that order. -/
structure SvcModel where
  lm_quant : Option (List Char)
  head_quant : Option (List Char)
deriving DecidableEq

/-- Environment of quantization application: library availability and the
outcome of each of the two in-place quantization calls (each single call
modelled as atomic at component granularity). -/
structure QuantEnv where
  torchao_available : Bool
  bnb_available : Bool
  quantize_lm_ok : Bool
  quantize_head_ok : Bool
deriving DecidableEq

/-- `_apply_torchao_quant(bits)` (tts_service.py:217-282): on a missing
torchao the model is returned untouched; otherwise `quantize_` runs on the
language model and then on `lm_head` inside one try block, so a failure of
the first call leaves the model untouched while a failure of the second
leaves the language model already quantized in place (partially quantized);
the exception is caught and logged either way — nothing escapes. -/
def _apply_torchao_quant (env : QuantEnv) (bits : Nat) (m : SvcModel) : SvcModel :=
  if ¬ env.torchao_available then m
  else if ¬ env.quantize_lm_ok then m
  else if ¬ env.quantize_head_ok then
    ⟨some (if bits = 4 then ("int4").data else ("int8").data), m.head_quant⟩
  else
    ⟨some (if bits = 4 then ("int4").data else ("int8").data),
      some (if bits = 4 then ("int4").data else ("int8").data)⟩

/-- `_apply_bnb_nf4_quant` (tts_service.py:284-357): same structure for the
bitsandbytes path — `replace_with_bnb_linear` mutates the language model and
then `lm_head` inside one try block with the same catch-and-continue policy,
so a second-call failure likewise leaves the model partially quantized. -/
def _apply_bnb_nf4_quant (env : QuantEnv) (m : SvcModel) : SvcModel :=
  if ¬ env.bnb_available then m
  else if ¬ env.quantize_lm_ok then m
  else if ¬ env.quantize_head_ok then ⟨some (("nf4").data), m.head_quant⟩
  else ⟨some (("nf4").data), some (("nf4").data)⟩

/-- `_apply_quantization` (tts_service.py:202-215): dispatch on the
configured method; an unknown method is skipped with a warning. -/
def _apply_quantization (env : QuantEnv) (method : List Char) (m : SvcModel) : SvcModel :=
  if method = ("int8_torchao").data then _apply_torchao_quant env 8 m
  else if method = ("int4_torchao").data then _apply_torchao_quant env 4 m
  else if method = ("nf4_bnb").data then _apply_bnb_nf4_quant env m
  else m

/-- C6 (amended): in the API service no quantization error ever escapes — a
missing library or a failure of the first in-place call (on the language
model) leaves the model entirely unchanged at full precision, while a
failure of the second call (on `lm_head`) is also caught but leaves the
already-quantized language model in place, i.e. partially quantized rather
than full precision; in the standalone core, by contrast, requesting 4-bit
or 8-bit quantization on a system without CUDA raises a hard load
failure. -/
theorem c6_quant_degrade_service_raise_core (env : QuantEnv) (method : List Char)
    (m : SvcModel) (st : CoreState) (lenv : LoadEnv) (name att quant : List Char)
    (lora : Option (List Char))
    (hmex : lenv.model_exists = true) (hcuda : lenv.cuda_available = false)
    (hfresh : st.model = none)
    (hq : quant = ("4bit").data ∨ quant = ("8bit").data) :
    (((env.torchao_available = false ∧ env.bnb_available = false) ∨
        env.quantize_lm_ok = false) →
      _apply_quantization env method m = m) ∧
      ((env.torchao_available = true ∧ env.quantize_lm_ok = true ∧
          env.quantize_head_ok = false) →
        _apply_quantization env (("int8_torchao").data) m =
          ⟨some (("int8").data), m.head_quant⟩) ∧
      (load_model st lenv name att quant lora).res =
        .error (("Model loading failed: LLM quantization requires a CUDA GPU").data) := by
  refine ⟨?_, ?_, ?_⟩
  · intro hsvc
    unfold _apply_quantization _apply_torchao_quant _apply_bnb_nf4_quant
    rcases hsvc with ⟨h1, h2⟩ | h1 <;> split_ifs <;> simp_all
  · intro h
    obtain ⟨h1, h2, h3⟩ := h
    unfold _apply_quantization _apply_torchao_quant
    rw [if_pos rfl, if_neg (by simp [h1]), if_neg (by simp [h2]), if_pos (by simp [h3])]
    simp
  · have hnr : needsReload st name att quant lora = true := by
      simp [needsReload, hfresh]
    unfold load_model
    rw [if_neg (by simp [hmex]), if_neg (by simp [hnr])]
    rw [if_pos ⟨hq, by simp [hcuda]⟩]

/-- C6 counterexample: the standalone core's `load_model` with
`quantize_llm="4bit"` on a CUDA-less system raises instead of degrading to
full precision, contradicting "never raises a hard failure". -/
theorem c6_counterexample :
    (load_model ⟨none, none, none, none, ("full precision").data, none⟩
        ⟨true, false, true, true, ⟨1⟩, ⟨1⟩⟩
        (("m").data) (("auto").data) (("4bit").data) none).res =
      .error (("Model loading failed: LLM quantization requires a CUDA GPU").data) := rfl

/-- Witness for C6, three concrete cases: with both libraries missing the
model is returned unchanged; with torchao present, the language-model call
succeeding and the `lm_head` call failing, the model comes back partially
quantized (language model tagged, head untouched); and an 8-bit core load on
a CUDA-less system fails hard. -/
theorem c6_witness :
    _apply_quantization ⟨false, false, true, true⟩ (("int8_torchao").data) ⟨none, none⟩ =
        ⟨none, none⟩ ∧
      _apply_quantization ⟨true, true, true, false⟩ (("int8_torchao").data) ⟨none, none⟩ =
        ⟨some (("int8").data), none⟩ ∧
      (load_model ⟨none, none, none, none, ("full precision").data, none⟩
          ⟨true, false, true, true, ⟨1⟩, ⟨1⟩⟩
          (("m").data) (("auto").data) (("8bit").data) none).res =
        .error (("Model loading failed: LLM quantization requires a CUDA GPU").data) :=
  ⟨(c6_quant_degrade_service_raise_core ⟨false, false, true, true⟩ (("int8_torchao").data)
      ⟨none, none⟩ ⟨none, none, none, none, ("full precision").data, none⟩
      ⟨true, false, true, true, ⟨1⟩, ⟨1⟩⟩ (("m").data) (("auto").data) (("8bit").data) none
      rfl rfl rfl (Or.inr rfl)).1 (Or.inl ⟨rfl, rfl⟩),
   (c6_quant_degrade_service_raise_core ⟨true, true, true, false⟩ (("int8_torchao").data)
      ⟨none, none⟩ ⟨none, none, none, none, ("full precision").data, none⟩
      ⟨true, false, true, true, ⟨1⟩, ⟨1⟩⟩ (("m").data) (("auto").data) (("8bit").data) none
      rfl rfl rfl (Or.inr rfl)).2.1 ⟨rfl, rfl, rfl⟩,
   (c6_quant_degrade_service_raise_core ⟨true, true, true, false⟩ (("int8_torchao").data)
      ⟨none, none⟩ ⟨none, none, none, none, ("full precision").data, none⟩
      ⟨true, false, true, true, ⟨1⟩, ⟨1⟩⟩ (("m").data) (("auto").data) (("8bit").data) none
      rfl rfl rfl (Or.inr rfl)).2.2⟩

/-! ### `convert_to_16_bit_wav` (audio_utils.py:14-42) -/

/-- `np.max(np.abs(audio))`; 0 for the empty buffer (NumPy raises there, a
case no claim reaches). -/
def maxAbsQ (l : List ℚ) : ℚ := l.foldl (fun m x => max m |x|) 0

/-- `astype(np.int16)` on an in-range value: C truncation toward zero. -/
def truncQ (q : ℚ) : Int := if 0 ≤ q then ⌊q⌋ else ⌈q⌉

/-- `convert_to_16_bit_wav(audio)`: if some sample exceeds 1 in magnitude,
divide every sample by the peak (peak normalisation — not clamping), then
scale by 32767 and truncate to 16-bit integers. -/
def convert_to_16_bit_wav (audio : List ℚ) : List Int :=
  (if 1 < maxAbsQ audio then audio.map (fun x => x / maxAbsQ audio) else audio).map
    (fun x => truncQ (x * 32767))

/-- The behaviour the claim asserts, following the spec's words: clamp each
sample into [-1, 1] before the bit-depth reduction.  For comparison with the
source function `convert_to_16_bit_wav`. -/
def convert_clamp_spec (audio : List ℚ) : List Int :=
  (audio.map (fun x => max (-1) (min 1 x))).map (fun x => truncQ (x * 32767))

theorem le_foldl_maxAbs (l : List ℚ) : ∀ m : ℚ, m ≤ l.foldl (fun a b => max a |b|) m := by
  induction l with
  | nil => intro m; simp
  | cons x l ih =>
    intro m
    calc m ≤ max m |x| := le_max_left _ _
    _ ≤ l.foldl (fun a b => max a |b|) (max m |x|) := ih _

theorem mem_le_foldl_maxAbs : ∀ (l : List ℚ) (m x : ℚ), x ∈ l →
    |x| ≤ l.foldl (fun a b => max a |b|) m := by
  intro l
  induction l with
  | nil => intro m x hx; simp at hx
  | cons a l ih =>
    intro m x hx
    rcases List.mem_cons.mp hx with h | h
    · subst h
      calc |x| ≤ max m |x| := le_max_right _ _
      _ ≤ l.foldl (fun a b => max a |b|) (max m |x|) := le_foldl_maxAbs l _
    · exact ih _ x h

theorem mem_le_maxAbsQ {x : ℚ} {l : List ℚ} (h : x ∈ l) : |x| ≤ maxAbsQ l :=
  mem_le_foldl_maxAbs l 0 x h

theorem truncQ_bound {q : ℚ} (h : |q| ≤ 32767) : -32767 ≤ truncQ q ∧ truncQ q ≤ 32767 := by
  obtain ⟨hlo, hhi⟩ := abs_le.mp h
  unfold truncQ
  by_cases hq : 0 ≤ q
  · rw [if_pos hq]
    constructor
    · have : (0 : Int) ≤ ⌊q⌋ := Int.floor_nonneg.mpr hq
      omega
    · have h1 : ⌊q⌋ ≤ ⌊(32767 : ℚ)⌋ := Int.floor_le_floor hhi
      have h2 : ⌊(32767 : ℚ)⌋ = 32767 := by
        rw [show ((32767 : ℚ)) = ((32767 : Int) : ℚ) from by norm_num]
        exact Int.floor_intCast _
      omega
  · rw [if_neg hq]
    push_neg at hq
    constructor
    · have h1 : ⌈(-32767 : ℚ)⌉ ≤ ⌈q⌉ := Int.ceil_le_ceil hlo
      have h2 : ⌈(-32767 : ℚ)⌉ = -32767 := by
        rw [show ((-32767 : ℚ)) = ((-32767 : Int) : ℚ) from by norm_num]
        exact Int.ceil_intCast _
      omega
    · have h1 : ⌈q⌉ ≤ ⌈(0 : ℚ)⌉ := Int.ceil_le_ceil (le_of_lt hq)
      have h2 : ⌈(0 : ℚ)⌉ = 0 := by
        rw [show ((0 : ℚ)) = ((0 : Int) : ℚ) from by norm_num]
        exact Int.ceil_intCast _
      omega

/-- C8 (amended): the encoding step does not clamp — when some sample
exceeds 1 in magnitude it peak-normalises (divides every sample by the
maximum absolute value) before reducing bit depth; every output sample still
lies in [-32767, 32767], inside the signed 16-bit range. -/
theorem c8_output_in_int16_range (audio : List ℚ) :
    ∀ v ∈ convert_to_16_bit_wav audio, -32767 ≤ v ∧ v ≤ 32767 := by
  intro v hv
  unfold convert_to_16_bit_wav at hv
  rcases List.mem_map.mp hv with ⟨x, hx, rfl⟩
  have habs : |x| ≤ 1 := by
    by_cases hpeak : 1 < maxAbsQ audio
    · rw [if_pos hpeak] at hx
      rcases List.mem_map.mp hx with ⟨z, hz, rfl⟩
      have hzb : |z| ≤ maxAbsQ audio := mem_le_maxAbsQ hz
      have hpos : (0 : ℚ) < maxAbsQ audio := lt_trans one_pos hpeak
      rw [abs_div, abs_of_pos hpos]
      rw [div_le_one hpos]
      exact hzb
    · rw [if_neg hpeak] at hx
      push_neg at hpeak
      exact le_trans (mem_le_maxAbsQ hx) hpeak
  have h32 : |x * 32767| ≤ 32767 := by
    rw [abs_mul]
    have h0 : |(32767 : ℚ)| = 32767 := by norm_num
    rw [h0]
    nlinarith [abs_nonneg x]
  exact truncQ_bound h32

/-- C8 counterexample: for the buffer `[2, 1/2]` the source function
peak-normalises (yielding sample values `[32767, 8191]`) while the claimed
clamping would yield `[32767, 16383]`; the encoding step does not clamp. -/
theorem c8_counterexample :
    convert_to_16_bit_wav [2, 1/2] ≠ convert_clamp_spec [2, 1/2] := by
  have hm : maxAbsQ [2, 1/2] = 2 := by
    norm_num [maxAbsQ, List.foldl_cons, List.foldl_nil, abs_of_nonneg]
  have hA : convert_to_16_bit_wav [2, 1/2] = [32767, 8191] := by
    unfold convert_to_16_bit_wav
    rw [hm, if_pos (by norm_num)]
    simp only [List.map_cons, List.map_nil]
    norm_num [truncQ]
  have hB : convert_clamp_spec [2, 1/2] = [32767, 16383] := by
    unfold convert_clamp_spec
    simp only [List.map_cons, List.map_nil]
    norm_num [truncQ]
  rw [hA, hB]
  simp

/-- Witness for C8: the two output samples for the buffer `[2, 1/2]` lie in
the signed 16-bit range. -/
theorem c8_witness :
    ((32767 : Int) ∈ convert_to_16_bit_wav [2, 1/2]) ∧
      (-32767 ≤ (32767 : Int) ∧ (32767 : Int) ≤ 32767) :=
  ⟨by
    have hm : maxAbsQ [2, 1/2] = 2 := by
      norm_num [maxAbsQ, List.foldl_cons, List.foldl_nil, abs_of_nonneg]
    unfold convert_to_16_bit_wav
    rw [hm, if_pos (by norm_num)]
    simp only [List.map_cons, List.map_nil]
    norm_num [truncQ],
   c8_output_in_int16_range [2, 1/2] 32767
    (by
      have hm : maxAbsQ [2, 1/2] = 2 := by
        norm_num [maxAbsQ, List.foldl_cons, List.foldl_nil, abs_of_nonneg]
      unfold convert_to_16_bit_wav
      rw [hm, if_pos (by norm_num)]
      simp only [List.map_cons, List.map_nil]
      norm_num [truncQ])⟩

/-! ### `TTSService.generate_speech` guard (tts_service.py:364-392) -/

/-- The lifecycle-relevant fields of `TTSService`. -/
structure TTSState where
  model_loaded : Bool
  model : Option SvcModel
  processor : Option ProcHandle
deriving DecidableEq

/-- `TTSService.generate_speech`: the not-loaded guard runs before anything
else; afterwards the abstracted engine (`self.model.generate`) runs, `none`
modelling "No audio generated".  Returns the outcome, the service state
afterwards, and whether the engine was invoked. -/
def TTSService.generate_speech (st : TTSState) (engine : Option (List ℚ)) :
    (Except (List Char) (List ℚ)) × TTSState × Bool :=
  if ¬ st.model_loaded then
    (.error (("Model not loaded. Call load_model() first.").data), st, false)
  else
    match engine with
    | some audio => (.ok audio, st, true)
    | none => (.error (("No audio generated").data), st, true)

/-- C10: a generation request while no model is loaded fails with an error,
the engine is never invoked, and the service state (loaded flag, model,
processor) is unchanged by the failed call. -/
theorem c10_not_loaded_guard (st : TTSState) (engine : Option (List ℚ))
    (h : st.model_loaded = false) :
    TTSService.generate_speech st engine =
      (.error (("Model not loaded. Call load_model() first.").data), st, false) := by
  unfold TTSService.generate_speech
  rw [if_pos (by simp [h])]

/-- Witness for C10: the unloaded initial state rejects a request for every
engine behaviour, here the engine that would return one sample. -/
theorem c10_witness :
    ((⟨false, none, none⟩ : TTSState).model_loaded = false) ∧
      TTSService.generate_speech ⟨false, none, none⟩ (some [(1 : ℚ)]) =
        (.error (("Model not loaded. Call load_model() first.").data),
          ⟨false, none, none⟩, false) :=
  ⟨rfl, c10_not_loaded_guard ⟨false, none, none⟩ (some [(1 : ℚ)]) rfl⟩

end VibeVoice
